import Mathlib

/-!
Shallow embedding of the client-side search / ranking / feed logic of the
founderoo blog (src/app/page.tsx and the useSearch hook), together with
theorems checking the natural-language specification's claims against it.

Strings are modelled by Lean `String` (lists of characters); JavaScript's
case-insensitive substring matching is modelled by explicit lowercasing
with `Char.toLower` and a substring test.  JavaScript `Map` objects are
modelled by association lists that preserve first-insertion order, as the
iteration order of a JS `Map` does.  `Math.log` is modelled by `Real.log`.
-/

/-- JS `hay.startsWith(needle)` / `hay.indexOf(needle) === 0` on char lists. -/
def listStarts : List Char → List Char → Bool
  | _, [] => true
  | [], _ :: _ => false
  | a :: as, b :: bs => a == b && listStarts as bs

/-- JS `hay.includes(needle)` (substring containment) on char lists. -/
def listContains : List Char → List Char → Bool
  | [], needle => needle.isEmpty
  | a :: as, needle => listStarts (a :: as) needle || listContains as needle

/-- JS `String.prototype.includes`. -/
def strContains (hay needle : String) : Bool :=
  listContains hay.data needle.data

/-- JS `hay.indexOf(needle) === 0`. -/
def strStarts (hay needle : String) : Bool :=
  listStarts hay.data needle.data

/-- JS `String.prototype.toLowerCase` (ASCII case folding). -/
def lowerStr (s : String) : String :=
  String.mk (s.data.map Char.toLower)

/-- JS `String.prototype.trim`: strip leading and trailing whitespace. -/
def jsTrim (s : String) : String :=
  String.mk
    (((s.data.dropWhile Char.isWhitespace).reverse.dropWhile
        Char.isWhitespace).reverse)

/-- JS `String.prototype.split(sep)` for a single-character separator,
on char lists.  `split` always returns at least one (possibly empty)
segment. -/
def splitOnChar (sep : Char) : List Char → List (List Char)
  | [] => [[]]
  | c :: cs =>
    if c = sep then [] :: splitOnChar sep cs
    else
      match splitOnChar sep cs with
      | [] => [[c]]
      | s :: ss => (c :: s) :: ss

/-- `createdAt` field as it arrives from the database: either a Firestore
timestamp object (which has `toDate()`), or a raw value passed to
`new Date(...)`, which yields either a valid date (`some` milliseconds) or
an Invalid Date (`none`; every `>=` comparison on it is false, as NaN
comparisons are). -/
inductive TimeVal where
  | firets : Int → TimeVal
  | raw : Option Int → TimeVal
deriving DecidableEq, Repr

/-- `post.createdAt?.toDate ? post.createdAt.toDate() : new Date(post.createdAt)`,
returning the resulting instant in milliseconds, or `none` for Invalid Date. -/
def normTime : TimeVal → Option Int
  | .firets ms => some ms
  | .raw o => o

/-- Post record, after the fields the search/feed core reads
(the `Post` interface of the useSearch hook; the home page's interface adds
render-only fields the core logic never consults).  `tags` and `views` are
optional at runtime, so they are modelled with `Option`. -/
structure Post where
  id : String
  title : String
  content : String
  category : String
  tags : Option (List String)
  authorName : String
  createdAt : TimeVal
  likes : Nat
  comments : Nat
  views : Option Nat
deriving DecidableEq, Repr

/-- The tag list a post effectively contributes (absent field ⇒ none). -/
def tagsList (p : Post) : List String :=
  p.tags.getD []

/-! ## Suggestion Index Builder (`searchSuggestions` memo) -/

/-- One entry of the suggestions `Map`: full key (`"author:" ++ name`,
`"tag:" ++ tag` or `"title:" ++ word`), the stored `type` string, and the
running count. -/
structure Entry where
  key : String
  ty : String
  count : Nat
deriving DecidableEq, Repr

/-- `suggestions.set(key, { type, count: (suggestions.get(key)?.count || 0) + 1 })`:
update in place when the key is present (JS `Map` keeps the original
insertion position), append at the end otherwise. -/
def bump (k ty : String) : List Entry → List Entry
  | [] => [⟨k, ty, 1⟩]
  | e :: es =>
    if e.key = k then ⟨k, ty, e.count + 1⟩ :: es
    else e :: bump k ty es

/-- Title keywords: `post.title.toLowerCase().split(' ').filter(w => w.length > 3)`. -/
def titleWords (title : String) : List String :=
  ((splitOnChar ' ' (lowerStr title).data).map String.mk).filter
    (fun w => 3 < w.data.length)

/-- Processing of one post by the suggestion builder: author key, then each
tag (when the field is present), then the long title keywords. -/
def stepPost (m : List Entry) (p : Post) : List Entry :=
  let m1 := bump ("author:" ++ p.authorName) "author" m
  let m2 :=
    match p.tags with
    | none => m1
    | some ts => ts.foldl (fun acc tg => bump ("tag:" ++ tg) "tag" acc) m1
  (titleWords p.title).foldl (fun acc w => bump ("title:" ++ w) "title" acc) m2

/-- The suggestions `Map` accumulated over the whole post collection. -/
def buildMap (posts : List Post) : List Entry :=
  posts.foldl stepPost []

/-- A derived search suggestion as handed to the UI. -/
structure Suggestion where
  ty : String
  value : String
  count : Nat
deriving DecidableEq, Repr

/-- `key.split(':')[1]` — the suggestion's displayed value. -/
def extractValue (key : String) : String :=
  match splitOnChar ':' key.data with
  | _ :: v :: _ => String.mk v
  | _ => ""

/-- Map entry → suggestion (`{ type, value: key.split(':')[1], count }`). -/
def toSuggestion (e : Entry) : Suggestion :=
  ⟨e.ty, extractValue e.key, e.count⟩

/-- Stable descending insertion by `count` (the behaviour of the stable JS
`sort((a, b) => b.count - a.count)`). -/
def insertByCount (x : Suggestion) : List Suggestion → List Suggestion
  | [] => [x]
  | y :: ys =>
    if y.count < x.count then x :: y :: ys
    else y :: insertByCount x ys

/-- Stable sort descending by `count`. -/
def sortByCount (l : List Suggestion) : List Suggestion :=
  l.foldl (fun acc x => insertByCount x acc) []

/-- Aggregated suggestions that survive the `count > 1` threshold, i.e.
the qualifying candidates before sorting and truncation. -/
def qualifying (posts : List Post) : List Suggestion :=
  ((buildMap posts).map toSuggestion).filter (fun s => 1 < s.count)

/-- The full `searchSuggestions` derivation:
entries → value extraction → `count > 1` filter → sort desc → `slice(0, 20)`. -/
def searchSuggestions (posts : List Post) : List Suggestion :=
  (sortByCount (qualifying posts)).take 20

/-! ## Relevance Scorer (`getRelevanceScore`) -/

/-- Title component: +100 for a match at position 0, +50 elsewhere. -/
def titleScore (p : Post) (ql : String) : Nat :=
  if strContains (lowerStr p.title) ql then
    (if strStarts (lowerStr p.title) ql then 100 else 50)
  else 0

/-- Author component: +30 on a match. -/
def authorScore (p : Post) (ql : String) : Nat :=
  if strContains (lowerStr p.authorName) ql then 30 else 0

/-- Tag component: +20 per matching tag (absent field contributes 0). -/
def tagScore (p : Post) (ql : String) : Nat :=
  match p.tags with
  | none => 0
  | some ts => 20 * ts.countP (fun t => strContains (lowerStr t) ql)

/-- Category component: +15 when the category is non-empty (JS truthiness)
and matches. -/
def catScore (p : Post) (ql : String) : Nat :=
  if p.category ≠ "" ∧ strContains (lowerStr p.category) ql then 15 else 0

/-- Content component: +5 on a match. -/
def contentScore (p : Post) (ql : String) : Nat :=
  if strContains (lowerStr p.content) ql then 5 else 0

/-- Sum of the textual match components, with `ql` the lowercased query. -/
def textScore (p : Post) (ql : String) : Nat :=
  titleScore p ql + authorScore p ql + tagScore p ql + catScore p ql
    + contentScore p ql

/-- `Math.log((post.views || 0) + 1) * 1`. -/
noncomputable def viewBoost (p : Post) : ℝ :=
  Real.log (((p.views.getD 0 : Nat) : ℝ) + 1) * 1

/-- `Math.log(post.likes + 1) * 2` plus the view boost. -/
noncomputable def popBoost (p : Post) : ℝ :=
  Real.log ((p.likes : ℝ) + 1) * 2 + viewBoost p

/-- `getRelevanceScore(post, searchTerm)`: 0 for whitespace-only queries,
otherwise textual components plus popularity boost. -/
noncomputable def getRelevanceScore (p : Post) (searchTerm : String) : ℝ :=
  if jsTrim searchTerm = "" then 0
  else (textScore p (lowerStr searchTerm) : ℝ) + popBoost p

/-! ## Search/Filter Engine — home page variant (`filterPosts`) -/

/-- The home page's free-text predicate: title, content, author, tags and
(non-empty) category, all case-insensitive; an empty `searchTerm` matches
everything. -/
def matchesSearchHome (st : String) (p : Post) : Bool :=
  (st == "")
    || strContains (lowerStr p.title) (lowerStr st)
    || strContains (lowerStr p.content) (lowerStr st)
    || strContains (lowerStr p.authorName) (lowerStr st)
    || (match p.tags with
        | some ts => ts.any (fun t => strContains (lowerStr t) (lowerStr st))
        | none => false)
    || (!(p.category == "") && strContains (lowerStr p.category) (lowerStr st))

/-- `selectedCategory === "all" || post.category === selectedCategory`. -/
def matchesCategory (sc : String) (p : Post) : Bool :=
  (sc == "all") || (p.category == sc)

open Classical in
/-- Stable descending insertion by relevance score (the JS stable
`sort((a, b) => bScore - aScore)`). -/
noncomputable def insertByScore (st : String) (x : Post) :
    List Post → List Post
  | [] => [x]
  | y :: ys =>
    if getRelevanceScore y st < getRelevanceScore x st then x :: y :: ys
    else y :: insertByScore st x ys

/-- Stable sort descending by relevance score. -/
noncomputable def sortByScore (st : String) (l : List Post) : List Post :=
  l.foldl (fun acc x => insertByScore st x acc) []

/-- `filterPosts` from the home page: filter by the search and category
predicates, then sort by relevance only when `searchTerm.trim()` is
non-empty. -/
noncomputable def filterPosts (st sc : String) (posts : List Post) :
    List Post :=
  if jsTrim st = "" then
    posts.filter (fun p => matchesSearchHome st p && matchesCategory sc p)
  else
    sortByScore st
      (posts.filter (fun p => matchesSearchHome st p && matchesCategory sc p))

/-! ## Search/Filter Engine — useSearch hook variant -/

/-- The hook's free-text predicate: title, content, author and tags only —
no category clause. -/
def matchesSearchHook (st : String) (p : Post) : Bool :=
  (st == "")
    || strContains (lowerStr p.title) (lowerStr st)
    || strContains (lowerStr p.content) (lowerStr st)
    || strContains (lowerStr p.authorName) (lowerStr st)
    || (match p.tags with
        | some ts => ts.any (fun t => strContains (lowerStr t) (lowerStr st))
        | none => false)

/-- The hook's `filteredPosts` memo (category predicate first). -/
def filteredPostsHook (st sc : String) (posts : List Post) : List Post :=
  posts.filter (fun p => matchesCategory sc p && matchesSearchHook st p)

/-- The hook's `sortedPosts` memo, which is what it exposes as
`filteredPosts`: untouched when the trimmed term is empty, otherwise
sorted descending by the same relevance score. -/
noncomputable def sortedPostsHook (st sc : String) (posts : List Post) :
    List Post :=
  if jsTrim st = "" then filteredPostsHook st sc posts
  else sortByScore st (filteredPostsHook st sc posts)

/-! ## Feed Partitioner (`fetchPosts` / `loadMorePosts` age split) -/

/-- `postDate >= oneHourAgo` with `oneHourAgo = now - 3600000`; an Invalid
Date compares false. -/
def isRecent (now : Int) (p : Post) : Bool :=
  match normTime p.createdAt with
  | some t => now - 3600000 ≤ t
  | none => false

/-- The `forEach` loop that pushes each post onto `recentPosts` or
`olderPosts`. -/
def partitionByAge (now : Int) (posts : List Post) :
    List Post × List Post :=
  posts.foldl
    (fun acc p =>
      if isRecent now p then (acc.1 ++ [p], acc.2) else (acc.1, acc.2 ++ [p]))
    ([], [])

/-- Featured post selection: head of `recentPosts` when non-empty, else
head of `olderPosts`, else none. -/
def selectFeatured (recent older : List Post) : Option Post :=
  match recent with
  | p :: _ => some p
  | [] =>
    match older with
    | p :: _ => some p
    | [] => none

/-- The partitioning performed by `fetchPosts` on the fetched page:
buckets plus featured post. -/
def fetchPartition (now : Int) (posts : List Post) :
    List Post × List Post × Option Post :=
  let r := partitionByAge now posts
  (r.1, r.2, selectFeatured r.1 r.2)

/-! ## Pagination Controller (`loadMorePosts`) -/

/-- The pagination-relevant component state of the home page. -/
structure PageState where
  posts : List Post
  allPosts : List Post
  latestPosts : List Post
  feedPosts : List Post
  lastVisible : Option Post
  hasMore : Bool
  loadingMore : Bool
deriving DecidableEq, Repr

/-- One complete `loadMorePosts` invocation, modelled atomically: the
guard drops the call (returning the state unchanged and `false` for "no
fetch issued"); otherwise the fetched page is appended, partitioned by
age, and the cursor and `hasMore` updated; `loadingMore` is reset by the
`finally` block.  `fetched` stands for the page the database would
return. -/
def loadMorePosts (cfg dbOk : Bool) (now : Int) (s : PageState)
    (fetched : List Post) : PageState × Bool :=
  if !s.hasMore || s.loadingMore || s.lastVisible.isNone || !cfg || !dbOk then
    (s, false)
  else if fetched.isEmpty then
    ({ s with hasMore := false, loadingMore := false }, true)
  else
    let r := partitionByAge now fetched
    ({ s with
        posts := s.posts ++ fetched
        allPosts := s.allPosts ++ fetched
        latestPosts := s.latestPosts ++ r.1
        feedPosts := s.feedPosts ++ r.2
        lastVisible := fetched.getLast?
        hasMore := fetched.length == 10
        loadingMore := false }, true)

/-! ## General helper lemmas -/

lemma strData_inj {a b : String} (h : a.data = b.data) : a = b := by
  cases a; cases b; exact congrArg String.mk h

lemma strAppend_data (a b : String) : (a ++ b).data = a.data ++ b.data := rfl

lemma strAppend_left_inj (s : String) {a b : String}
    (h : s ++ a = s ++ b) : a = b := by
  apply strData_inj
  have hd : s.data ++ a.data = s.data ++ b.data := by
    rw [← strAppend_data, ← strAppend_data, h]
  exact List.append_cancel_left hd

lemma key_author_ne_tag (a t : String) :
    ("author:" ++ a : String) ≠ "tag:" ++ t := by
  intro h
  have hd : ('a' :: 'u' :: 't' :: 'h' :: 'o' :: 'r' :: ':' :: a.data)
      = ('t' :: 'a' :: 'g' :: ':' :: t.data) := congrArg String.data h
  injection hd with h1 _
  exact absurd h1 (by decide)

lemma key_title_ne_tag (w t : String) :
    ("title:" ++ w : String) ≠ "tag:" ++ t := by
  intro h
  have hd : ('t' :: 'i' :: 't' :: 'l' :: 'e' :: ':' :: w.data)
      = ('t' :: 'a' :: 'g' :: ':' :: t.data) := congrArg String.data h
  injection hd with _ h2
  injection h2 with h3 _
  exact absurd h3 (by decide)

lemma key_author_ne_title (a w : String) :
    ("author:" ++ a : String) ≠ "title:" ++ w := by
  intro h
  have hd : ('a' :: 'u' :: 't' :: 'h' :: 'o' :: 'r' :: ':' :: a.data)
      = ('t' :: 'i' :: 't' :: 'l' :: 'e' :: ':' :: w.data) := congrArg String.data h
  injection hd with h1 _
  exact absurd h1 (by decide)

lemma key_tag_inj {a b : String} (h : ("tag:" ++ a : String) = "tag:" ++ b) :
    a = b :=
  strAppend_left_inj "tag:" h

/-! ## C1: empty search term and category "all" leave the list unchanged -/

/-- **C1.** For every post list `S`, running the search/filter engine with
`searchTerm = ""` and `selectedCategory = "all"` returns `S` itself: every
post, in its original order, with no relevance sorting applied.  This
holds for the home page's `filterPosts` and for the useSearch hook's
exposed `filteredPosts` (its `sortedPosts` memo) alike. -/
theorem spec_C1_empty_search_identity (S : List Post) :
    filterPosts "" "all" S = S ∧ sortedPostsHook "" "all" S = S := by
  constructor
  · unfold filterPosts
    rw [if_pos (by decide : jsTrim "" = "")]
    simp [matchesSearchHome, matchesCategory]
  · unfold sortedPostsHook filteredPostsHook
    rw [if_pos (by decide : jsTrim "" = "")]
    simp [matchesSearchHook, matchesCategory]

/-! ## C4: feed partition by one-hour recency window, featured selection -/

lemma partitionByAge_foldl (now : Int) (posts : List Post) (r o : List Post) :
    posts.foldl
      (fun acc p =>
        if isRecent now p then (acc.1 ++ [p], acc.2) else (acc.1, acc.2 ++ [p]))
      (r, o)
      = (r ++ posts.filter (fun p => isRecent now p),
         o ++ posts.filter (fun p => !(isRecent now p))) := by
  induction posts generalizing r o with
  | nil => simp
  | cons p ps ih =>
    by_cases h : isRecent now p <;>
      simp [List.foldl_cons, h, ih, List.filter_cons]

lemma partitionByAge_eq (now : Int) (posts : List Post) :
    partitionByAge now posts
      = (posts.filter (fun p => isRecent now p),
         posts.filter (fun p => !(isRecent now p))) := by
  unfold partitionByAge
  simpa using partitionByAge_foldl now posts [] []

lemma selectFeatured_eq (recent older : List Post) :
    selectFeatured recent older
      = if recent = [] then older.head? else recent.head? := by
  cases recent <;> cases older <;> simp [selectFeatured]

/-- **C4.** Given a fetched page and the wall-clock `now`, every post whose
normalized `createdAt` is within the last 3 600 000 ms of `now` lands in
the recent bucket and every other post in the feed bucket, in the original
order (the buckets are the order-preserving filters of the input), and the
featured post is the head of the recent bucket when it is non-empty,
otherwise the head of the feed bucket. -/
theorem spec_C4_feed_partition (now : Int) (posts : List Post) :
    fetchPartition now posts
      = (posts.filter (fun p => isRecent now p),
         posts.filter (fun p => !(isRecent now p)),
         if posts.filter (fun p => isRecent now p) = []
         then (posts.filter (fun p => !(isRecent now p))).head?
         else (posts.filter (fun p => isRecent now p)).head?) := by
  unfold fetchPartition
  simp only [partitionByAge_eq, selectFeatured_eq]

/-! ## C5: unparsable timestamps go to the feed bucket, never recent -/

/-- **C5.** A post whose `createdAt` cannot be normalized to a valid
instant (`new Date(...)` yields an Invalid Date, whose comparisons are all
false) is placed in the feed/older bucket and never in the recent bucket;
the partition function is total, so no exception is raised. -/
theorem spec_C5_unparsable_goes_to_feed (now : Int) (posts : List Post)
    (p : Post) (hmem : p ∈ posts) (hbad : normTime p.createdAt = none) :
    p ∈ (fetchPartition now posts).2.1 ∧ p ∉ (fetchPartition now posts).1 := by
  have hnr : isRecent now p = false := by
    unfold isRecent; rw [hbad]
  unfold fetchPartition
  rw [partitionByAge_eq]
  constructor
  · simp [List.mem_filter, hmem, hnr]
  · simp [List.mem_filter, hnr]

/-- Concrete instance for C5: a post stored with an unparsable raw
timestamp ends up in the feed bucket. -/
def cexBadDate : Post :=
  ⟨"bad", "t", "c", "cat", none, "auth", .raw none, 0, 0, none⟩

theorem spec_C5_witness :
    cexBadDate ∈ (fetchPartition 1000 [cexBadDate]).2.1 ∧
      cexBadDate ∉ (fetchPartition 1000 [cexBadDate]).1 :=
  spec_C5_unparsable_goes_to_feed 1000 [cexBadDate] cexBadDate
    (by simp) rfl

/-! ## C9: load-more is a no-op while loading or exhausted -/

/-- **C9.** A `loadMorePosts` invocation arriving while a previous load is
still in flight (`loadingMore` set) or while `hasMore` is false is dropped:
no fetch is issued (the `false` flag) and the pagination state is returned
unchanged, so two loads are never in flight at once. -/
theorem spec_C9_loadmore_noop (cfg dbOk : Bool) (now : Int) (s : PageState)
    (fetched : List Post)
    (h : s.loadingMore = true ∨ s.hasMore = false) :
    loadMorePosts cfg dbOk now s fetched = (s, false) := by
  unfold loadMorePosts
  rcases h with h | h <;> simp [h]

def idleButLoadingState : PageState :=
  ⟨[], [], [], [], none, true, true⟩

theorem spec_C9_witness :
    loadMorePosts true true 0 idleButLoadingState [] =
      (idleButLoadingState, false) :=
  spec_C9_loadmore_noop true true 0 idleButLoadingState [] (Or.inl rfl)

/-! ## C8: the two filter variants disagree on the category clause -/

/-- A post that only its category matches against the term "tech". -/
def catOnlyPost : Post :=
  ⟨"c", "x", "x", "Tech", some [], "x", .raw none, 0, 0, none⟩

/-- **C8.** There is a post collection, non-empty search term and selected
category on which the two filter implementations disagree: the home page's
`filterPosts` keeps a post whose category (case-insensitively) contains
the term even though title, content, author and tags do not, while the
useSearch hook's filter drops the same post, because only the former
includes the category in the free-text predicate. -/
theorem spec_C8_filter_variants_differ :
    ∃ (p : Post) (st sc : String),
      st ≠ "" ∧
      strContains (lowerStr p.category) (lowerStr st) = true ∧
      strContains (lowerStr p.title) (lowerStr st) = false ∧
      strContains (lowerStr p.content) (lowerStr st) = false ∧
      strContains (lowerStr p.authorName) (lowerStr st) = false ∧
      (∀ t ∈ tagsList p, strContains (lowerStr t) (lowerStr st) = false) ∧
      filterPosts st sc [p] = [p] ∧
      sortedPostsHook st sc [p] = [] := by
  refine ⟨catOnlyPost, "tech", "all", by decide, by decide, by decide,
    by decide, by decide, by decide, ?_, ?_⟩
  · unfold filterPosts
    rw [if_neg (by decide : ¬ jsTrim "tech" = "")]
    rw [show
      List.filter
        (fun p => matchesSearchHome "tech" p && matchesCategory "all" p)
        [catOnlyPost] = [catOnlyPost] by decide]
    unfold sortByScore
    simp [insertByScore]
  · unfold sortedPostsHook
    rw [if_neg (by decide : ¬ jsTrim "tech" = "")]
    rw [show filteredPostsHook "tech" "all" [catOnlyPost] = [] by decide]
    rfl

/-! ## C10: suggestion values are truncated at the first colon -/

lemma splitOnChar_head (sep : Char) (l : List Char) :
    ∃ rest, splitOnChar sep l
      = l.takeWhile (fun c => !(c == sep)) :: rest := by
  induction l with
  | nil => exact ⟨[], rfl⟩
  | cons c cs ih =>
    by_cases h : c = sep
    · exact ⟨splitOnChar sep cs, by simp [splitOnChar, h, List.takeWhile_cons]⟩
    · obtain ⟨rest, hr⟩ := ih
      refine ⟨rest, ?_⟩
      simp [splitOnChar, h, hr, List.takeWhile_cons]

lemma splitOnChar_append (sep : Char) (l1 l2 : List Char)
    (h : ∀ c ∈ l1, ¬ c = sep) :
    splitOnChar sep (l1 ++ sep :: l2) = l1 :: splitOnChar sep l2 := by
  induction l1 with
  | nil => simp [splitOnChar]
  | cons c cs ih =>
    have hc : ¬ c = sep := h c (by simp)
    have ih2 := ih (fun x hx => h x (by simp [hx]))
    simp [splitOnChar, hc, ih2]

/-- The part of a token before its first colon (all of it when there is
none) — what the spec calls the truncated value. -/
def beforeColon (t : String) : String :=
  String.mk (t.data.takeWhile (fun c => !(c == ':')))

lemma extractValue_key (kind t : String) (h : ∀ c ∈ kind.data, ¬ c = ':') :
    extractValue (kind ++ ":" ++ t) = beforeColon t := by
  have hd : (kind ++ ":" ++ t).data = kind.data ++ ':' :: t.data := by
    show (kind.data ++ [':']) ++ t.data = kind.data ++ ':' :: t.data
    simp
  unfold extractValue
  rw [hd, splitOnChar_append _ _ _ h]
  obtain ⟨rest, hr⟩ := splitOnChar_head ':' t.data
  rw [hr]
  rfl

/-- A token with no colon is its own truncation. -/
lemma beforeColon_of_noColon (t : String) (h : ∀ c ∈ t.data, ¬ c = ':') :
    beforeColon t = t := by
  apply strData_inj
  show t.data.takeWhile (fun c => !(c == ':')) = t.data
  rw [List.takeWhile_eq_self_iff]
  intro c hc
  simpa using h c hc

/-- Two posts sharing the colon-carrying author "bob:smith" and the two
tags "a:b" and "a:c". -/
def colonPost1 : Post :=
  ⟨"p1", "", "", "", some ["a:b", "a:c"], "bob:smith", .raw none, 0, 0, none⟩

def colonPost2 : Post :=
  ⟨"p2", "", "", "", some ["a:b", "a:c"], "bob:smith", .raw none, 0, 0, none⟩

/-- **C10.** Every derived suggestion's `value` is only the portion of the
extracted token before its first colon (`key.split(':')[1]`): shown in
general for the three key kinds, and on a concrete collection where the
author "bob:smith" surfaces as value "bob" and the two distinct tags
"a:b" and "a:c" yield two separate entries with the same type and the
same truncated value "a" instead of one merged entry. -/
theorem spec_C10_colon_truncation :
    (∀ t : String, extractValue ("tag:" ++ t) = beforeColon t) ∧
    (∀ a : String, extractValue ("author:" ++ a) = beforeColon a) ∧
    (∀ w : String, extractValue ("title:" ++ w) = beforeColon w) ∧
    searchSuggestions [colonPost1, colonPost2]
      = [⟨"author", "bob", 2⟩, ⟨"tag", "a", 2⟩, ⟨"tag", "a", 2⟩] := by
  refine ⟨?_, ?_, ?_, by decide⟩
  · exact fun t => extractValue_key "tag" t (by decide)
  · exact fun a => extractValue_key "author" a (by decide)
  · exact fun w => extractValue_key "title" w (by decide)

/-! ## Sorting lemmas for the suggestion pipeline -/

lemma insertByCount_perm (x : Suggestion) (l : List Suggestion) :
    List.Perm (insertByCount x l) (x :: l) := by
  induction l with
  | nil => exact List.Perm.refl _
  | cons y ys ih =>
    by_cases hc : y.count < x.count
    · rw [insertByCount, if_pos hc]
    · rw [insertByCount, if_neg hc]
      exact (ih.cons y).trans (List.Perm.swap x y ys)

lemma foldl_insertByCount_perm (l acc : List Suggestion) :
    List.Perm (l.foldl (fun acc x => insertByCount x acc) acc) (acc ++ l) := by
  induction l generalizing acc with
  | nil => simp
  | cons x xs ih =>
    refine List.Perm.trans (ih (insertByCount x acc)) ?_
    refine List.Perm.trans
      (List.Perm.append_right xs (insertByCount_perm x acc)) ?_
    exact List.perm_middle.symm

lemma sortByCount_perm (l : List Suggestion) :
    List.Perm (sortByCount l) l := by
  simpa using foldl_insertByCount_perm l []

lemma insertByCount_pairwise (x : Suggestion) (l : List Suggestion)
    (h : l.Pairwise (fun a b => b.count ≤ a.count)) :
    (insertByCount x l).Pairwise (fun a b => b.count ≤ a.count) := by
  induction l with
  | nil => simp [insertByCount]
  | cons y ys ih =>
    rw [List.pairwise_cons] at h
    by_cases hc : y.count < x.count
    · rw [insertByCount, if_pos hc]
      refine List.Pairwise.cons ?_ (List.Pairwise.cons h.1 h.2)
      intro z hz
      rcases List.mem_cons.mp hz with hz | hz
      · exact hz ▸ le_of_lt hc
      · exact le_trans (h.1 z hz) (le_of_lt hc)
    · rw [insertByCount, if_neg hc]
      refine List.Pairwise.cons ?_ (ih h.2)
      intro z hz
      rcases List.mem_cons.mp ((insertByCount_perm x ys).mem_iff.mp hz)
          with hz | hz
      · exact hz ▸ le_of_not_lt hc
      · exact h.1 z hz

lemma sortByCount_pairwise_aux (l acc : List Suggestion)
    (h : acc.Pairwise (fun a b => b.count ≤ a.count)) :
    ((l.foldl (fun acc x => insertByCount x acc) acc)).Pairwise
      (fun a b => b.count ≤ a.count) := by
  induction l generalizing acc with
  | nil => exact h
  | cons x xs ih => exact ih _ (insertByCount_pairwise x acc h)

lemma sortByCount_pairwise (l : List Suggestion) :
    (sortByCount l).Pairwise (fun a b => b.count ≤ a.count) :=
  sortByCount_pairwise_aux l [] (List.Pairwise.nil)

/-! ## C6: the suggestion list caps at the 20 highest counts, descending -/

/-- **C6.** `searchSuggestions` never exceeds 20 entries; the retained
entries are listed in descending order of `count`; and every entry the
truncation drops (the tail of the sorted qualifying list past position 20)
has a count no larger than every retained entry — so when more than 20
aggregated suggestions qualify, the 20 highest-count ones are kept. -/
theorem spec_C6_suggestion_cap (posts : List Post) :
    (searchSuggestions posts).length ≤ 20 ∧
    (searchSuggestions posts).Pairwise (fun a b => b.count ≤ a.count) ∧
    (∀ a ∈ searchSuggestions posts,
      ∀ b ∈ (sortByCount (qualifying posts)).drop 20, b.count ≤ a.count) := by
  refine ⟨?_, ?_, ?_⟩
  · simp [searchSuggestions]
  · exact List.Pairwise.sublist (List.take_sublist _ _)
      (sortByCount_pairwise (qualifying posts))
  · have hs := sortByCount_pairwise (qualifying posts)
    rw [← List.take_append_drop 20 (sortByCount (qualifying posts)),
      List.pairwise_append] at hs
    exact fun a ha b hb => hs.2.2 a ha b hb

/-! ## C7: posts with no tags and no views are handled neutrally -/

lemma listStarts_append (l m : List Char) : listStarts (l ++ m) l = true := by
  induction l with
  | nil => simp [listStarts]
  | cons c cs ih => simp [listStarts, ih]

lemma strStarts_key (s t : String) : strStarts (s ++ t) s = true := by
  show listStarts (s.data ++ t.data) s.data = true
  exact listStarts_append _ _

lemma author_key_not_tag (a : String) :
    strStarts ("author:" ++ a) "tag:" = false := rfl

lemma title_key_not_tag (w : String) :
    strStarts ("title:" ++ w) "tag:" = false := rfl

/-- The invariant relating a map key to the `type` stored under it: every
key produced by the builder carries the type matching its prefix. -/
def KeyTyOk (k ty : String) : Prop :=
  (strStarts k "author:" = true ∧ ty = "author") ∨
  (strStarts k "tag:" = true ∧ ty = "tag") ∨
  (strStarts k "title:" = true ∧ ty = "title")

/-- Every entry of the map is well-typed in the sense of `KeyTyOk`. -/
def WellTyped (m : List Entry) : Prop := ∀ e ∈ m, KeyTyOk e.key e.ty

/-- The tag-typed entries of the map. -/
def tagEntries (m : List Entry) : List Entry :=
  m.filter (fun e => e.ty == "tag")

lemma wellTyped_bump (k ty : String) (m : List Entry) (hm : WellTyped m)
    (hk : KeyTyOk k ty) : WellTyped (bump k ty m) := by
  induction m with
  | nil =>
    intro e he
    rw [bump] at he
    rcases List.mem_singleton.mp he with rfl
    exact hk
  | cons f fs ih =>
    intro e he
    by_cases h : f.key = k
    · rw [bump, if_pos h] at he
      rcases List.mem_cons.mp he with rfl | he2
      · exact hk
      · exact hm e (List.mem_cons_of_mem _ he2)
    · rw [bump, if_neg h] at he
      rcases List.mem_cons.mp he with rfl | he2
      · exact hm e (List.mem_cons_self _ _)
      · exact ih (fun x hx => hm x (List.mem_cons_of_mem _ hx)) e he2

lemma tagEntries_bump_nontag (k ty : String) (m : List Entry)
    (hty : ty ≠ "tag") (hkey : ∀ e ∈ m, e.key = k → e.ty ≠ "tag") :
    tagEntries (bump k ty m) = tagEntries m := by
  induction m with
  | nil =>
    simp [bump, tagEntries, List.filter_cons, hty]
  | cons e es ih =>
    by_cases h : e.key = k
    · rw [bump, if_pos h]
      have he : e.ty ≠ "tag" := hkey e (List.mem_cons_self e es) h
      simp [tagEntries, List.filter_cons, hty, he]
    · rw [bump, if_neg h]
      have ih2 := ih (fun e2 he2 hk => hkey e2 (List.mem_cons_of_mem _ he2) hk)
      unfold tagEntries at ih2 ⊢
      rw [List.filter_cons, List.filter_cons]
      cases hety : (e.ty == "tag") <;> simp [ih2]

lemma author_entry_not_tag {e : Entry} (he : KeyTyOk e.key e.ty)
    (a : String) (hk : e.key = "author:" ++ a) : e.ty ≠ "tag" := by
  rcases he with ⟨_, h⟩ | ⟨h1, _⟩ | ⟨_, h⟩
  · rw [h]; decide
  · rw [hk, author_key_not_tag] at h1; exact absurd h1 (by decide)
  · rw [h]; decide

lemma title_entry_not_tag {e : Entry} (he : KeyTyOk e.key e.ty)
    (w : String) (hk : e.key = "title:" ++ w) : e.ty ≠ "tag" := by
  rcases he with ⟨_, h⟩ | ⟨h1, _⟩ | ⟨_, h⟩
  · rw [h]; decide
  · rw [hk, title_key_not_tag] at h1; exact absurd h1 (by decide)
  · rw [h]; decide

lemma tagEntries_titleFold (ws : List String) (m : List Entry)
    (hm : WellTyped m) :
    tagEntries
        (ws.foldl (fun acc w => bump ("title:" ++ w) "title" acc) m)
      = tagEntries m ∧
    WellTyped (ws.foldl (fun acc w => bump ("title:" ++ w) "title" acc) m) := by
  induction ws generalizing m with
  | nil => exact ⟨rfl, hm⟩
  | cons w ws ih =>
    have h1 : tagEntries (bump ("title:" ++ w) "title" m) = tagEntries m :=
      tagEntries_bump_nontag _ _ m (by decide)
        (fun e he hk => title_entry_not_tag (hm e he) w hk)
    have h2 : WellTyped (bump ("title:" ++ w) "title" m) :=
      wellTyped_bump _ _ m hm (Or.inr (Or.inr ⟨strStarts_key "title:" w, rfl⟩))
    obtain ⟨ha, hb⟩ := ih _ h2
    exact ⟨ha.trans h1, hb⟩

/-- **C7.** A well-formed post with no `tags` field and no `views` field is
processed without failure (all functions here are total): its tag score
contribution is 0, its views popularity boost is 0, and running the
suggestion builder step over it adds no tag-typed entries to any
well-typed suggestion map. -/
theorem spec_C7_missing_fields_safe (p : Post) (q : String) (m : List Entry)
    (h1 : p.tags = none) (h2 : p.views = none) (hm : WellTyped m) :
    tagScore p q = 0 ∧ viewBoost p = 0 ∧
      tagEntries (stepPost m p) = tagEntries m := by
  refine ⟨by simp [tagScore, h1], ?_, ?_⟩
  · simp [viewBoost, h2, Real.log_one]
  · have hauthor_wt :
        WellTyped (bump ("author:" ++ p.authorName) "author" m) :=
      wellTyped_bump _ _ m hm
        (Or.inl ⟨strStarts_key "author:" p.authorName, rfl⟩)
    have hauthor :
        tagEntries (bump ("author:" ++ p.authorName) "author" m)
          = tagEntries m :=
      tagEntries_bump_nontag _ _ m (by decide)
        (fun e he hk => author_entry_not_tag (hm e he) _ hk)
    have hstep : stepPost m p
        = (titleWords p.title).foldl
            (fun acc w => bump ("title:" ++ w) "title" acc)
            (bump ("author:" ++ p.authorName) "author" m) := by
      simp only [stepPost, h1]
    rw [hstep]
    obtain ⟨ht, _⟩ := tagEntries_titleFold (titleWords p.title) _ hauthor_wt
    rw [ht, hauthor]

def missingFieldsPost : Post :=
  ⟨"w", "", "", "", none, "max", .raw none, 0, 0, none⟩

def oneAuthorMap : List Entry := [⟨"author:max", "author", 1⟩]

theorem spec_C7_witness :
    tagScore missingFieldsPost "x" = 0 ∧ viewBoost missingFieldsPost = 0 ∧
      tagEntries (stepPost oneAuthorMap missingFieldsPost)
        = tagEntries oneAuthorMap :=
  spec_C7_missing_fields_safe missingFieldsPost "x" oneAuthorMap rfl rfl
    (by simp only [WellTyped, KeyTyOk]; decide)

/-! ## C2: title match vs content-only match under the query "startup" -/

/-- **C2 (amended).** For the query "startup", a post A titled
"AI Startup Guide" outranks a post B whose content alone contains
"startup" (title, author, tags and category do not), **provided A and B
carry the same likes and views counters**: A's textual score is at least
50 against B's 5, and equal counters give equal popularity boosts.  The
unrestricted claim over all counter values is refuted by
`spec_C2_counterexample`. -/
theorem spec_C2_title_beats_content_amended (A B : Post)
    (hA : A.title = "AI Startup Guide")
    (hBc : strContains (lowerStr B.content) (lowerStr "startup") = true)
    (hBt : strContains (lowerStr B.title) (lowerStr "startup") = false)
    (hBa : strContains (lowerStr B.authorName) (lowerStr "startup") = false)
    (hBtags : ∀ t ∈ tagsList B,
      strContains (lowerStr t) (lowerStr "startup") = false)
    (hBcat : strContains (lowerStr B.category) (lowerStr "startup") = false)
    (hlikes : A.likes = B.likes) (hviews : A.views = B.views) :
    getRelevanceScore B "startup" < getRelevanceScore A "startup" := by
  have htrim : ¬ jsTrim "startup" = "" := by decide
  unfold getRelevanceScore
  rw [if_neg htrim, if_neg htrim]
  have hboost : popBoost A = popBoost B := by
    unfold popBoost viewBoost
    rw [hlikes, hviews]
  have htag : tagScore B (lowerStr "startup") = 0 := by
    unfold tagScore
    cases htg : B.tags with
    | none => rfl
    | some ts =>
      have hz : ts.countP
          (fun t => strContains (lowerStr t) (lowerStr "startup")) = 0 := by
        rw [List.countP_eq_zero]
        intro a ha
        have := hBtags a (by simp [tagsList, htg, ha])
        simp [this]
      simp [hz]
  have hTB : textScore B (lowerStr "startup") = 5 := by
    have h1 : titleScore B (lowerStr "startup") = 0 := by
      unfold titleScore; rw [hBt]; rfl
    have h2 : authorScore B (lowerStr "startup") = 0 := by
      unfold authorScore; rw [hBa]; rfl
    have h4 : catScore B (lowerStr "startup") = 0 := by
      unfold catScore; rw [hBcat]; simp
    have h5 : contentScore B (lowerStr "startup") = 5 := by
      unfold contentScore; rw [hBc]; rfl
    unfold textScore
    rw [h1, h2, htag, h4, h5]
  have hTA : 50 ≤ textScore A (lowerStr "startup") := by
    have h50 : titleScore A (lowerStr "startup") = 50 := by
      unfold titleScore
      rw [hA]
      decide
    unfold textScore
    omega
  rw [hboost, hTB]
  have hTA2 : (50 : ℝ) ≤ (textScore A (lowerStr "startup") : ℝ) := by
    exact_mod_cast hTA
  push_cast
  linarith

def titlePost : Post :=
  ⟨"a", "AI Startup Guide", "", "", none, "", .raw none, 3, 0, some 7⟩

def contentPost : Post :=
  ⟨"b", "b", "has startup inside", "", some ["x"], "b", .raw none, 3, 0,
    some 7⟩

theorem spec_C2_witness :
    getRelevanceScore contentPost "startup"
      < getRelevanceScore titlePost "startup" :=
  spec_C2_title_beats_content_amended titlePost contentPost rfl (by decide)
    (by decide) (by decide) (by decide) (by decide) rfl rfl

def cexA : Post :=
  ⟨"a", "AI Startup Guide", "", "", none, "", .raw none, 0, 0, none⟩

def cexB : Post :=
  ⟨"b", "b", "startup", "", none, "b", .raw none, 1000000000, 0,
    some 1000000000⟩

/-- **C2 counterexample.** The claim as frozen quantifies over *all*
non-negative likes/views counters of A and B.  It fails: with A's counters
at 0 (score exactly 50) and B's likes and views at 10⁹, B's unbounded
logarithmic popularity boost `5 + 3·ln(10⁹+1) > 50` lets the content-only
post outrank the title match. -/
theorem spec_C2_counterexample :
    cexA.title = "AI Startup Guide" ∧
    strContains (lowerStr cexB.content) (lowerStr "startup") = true ∧
    strContains (lowerStr cexB.title) (lowerStr "startup") = false ∧
    strContains (lowerStr cexB.authorName) (lowerStr "startup") = false ∧
    (∀ t ∈ tagsList cexB,
      strContains (lowerStr t) (lowerStr "startup") = false) ∧
    strContains (lowerStr cexB.category) (lowerStr "startup") = false ∧
    ¬ getRelevanceScore cexB "startup" < getRelevanceScore cexA "startup" := by
  refine ⟨rfl, by decide, by decide, by decide, by decide, by decide, ?_⟩
  have hA : getRelevanceScore cexA "startup" = 50 := by
    unfold getRelevanceScore
    rw [if_neg (by decide : ¬ jsTrim "startup" = "")]
    rw [show textScore cexA (lowerStr "startup") = 50 by decide]
    unfold popBoost viewBoost
    norm_num [cexA, Real.log_one]
  have hB : getRelevanceScore cexB "startup"
      = 5 + (Real.log 1000000001 * 2 + Real.log 1000000001 * 1) := by
    unfold getRelevanceScore
    rw [if_neg (by decide : ¬ jsTrim "startup" = "")]
    rw [show textScore cexB (lowerStr "startup") = 5 by decide]
    unfold popBoost viewBoost
    norm_num [cexB]
  have hlog : (15 : ℝ) ≤ Real.log 1000000001 := by
    rw [Real.le_log_iff_exp_le (by norm_num)]
    have h1 : Real.exp 15 = Real.exp 1 ^ (15 : ℕ) := by
      rw [← Real.exp_nat_mul]; norm_num
    rw [h1]
    have h2 : Real.exp 1 ^ (15 : ℕ) ≤ (2.7182818286 : ℝ) ^ (15 : ℕ) :=
      pow_le_pow_left₀ (le_of_lt (Real.exp_pos 1))
        (le_of_lt Real.exp_one_lt_d9) 15
    refine le_trans h2 ?_
    norm_num
  rw [hA, hB, not_lt]
  linarith

/-! ## C3: map-lookup and counting lemmas for the suggestion builder -/

/-- `suggestions.get(k)` — the entry stored under key `k`. -/
def findEntry (m : List Entry) (k : String) : Option Entry :=
  m.find? (fun e => e.key == k)

/-- `suggestions.get(k)?.count || 0`. -/
def lookupCount (m : List Entry) (k : String) : Nat :=
  ((findEntry m k).map Entry.count).getD 0

/-- Total number of occurrences of tag `t` across the collection, counting
duplicates within one post the way the builder's `forEach` does. -/
def occCount (t : String) (posts : List Post) : Nat :=
  (posts.map (fun p => (tagsList p).count t)).sum

/-- Number of posts carrying the tag `t` at least once. -/
def postsWithTag (t : String) (posts : List Post) : Nat :=
  posts.countP (fun p => decide (t ∈ tagsList p))

/-- No character of `s` is a colon. -/
def noColon (s : String) : Bool :=
  s.data.all (fun c => !(c == ':'))

lemma findEntry_bump_self (m : List Entry) (k ty : String) :
    findEntry (bump k ty m) k = some ⟨k, ty, lookupCount m k + 1⟩ := by
  induction m with
  | nil => simp [bump, findEntry, lookupCount, List.find?]
  | cons e es ih =>
    by_cases h : e.key = k
    · rw [bump, if_pos h]
      simp [findEntry, List.find?, lookupCount, h]
    · rw [bump, if_neg h]
      have hne : (e.key == k) = false := by simp [h]
      simp only [findEntry, List.find?_cons, hne] at ih ⊢
      rw [ih]
      simp [lookupCount, findEntry, List.find?_cons, hne]

lemma findEntry_bump_other (m : List Entry) {k k2 : String} (ty : String)
    (h : k2 ≠ k) : findEntry (bump k ty m) k2 = findEntry m k2 := by
  have hkk : (k == k2) = false := beq_eq_false_iff_ne.mpr (Ne.symm h)
  induction m with
  | nil => simp [bump, findEntry, List.find?, hkk]
  | cons e es ih =>
    by_cases hek : e.key = k
    · rw [bump, if_pos hek]
      have h2 : (e.key == k2) = false := by rw [hek]; exact hkk
      simp [findEntry, List.find?_cons, hkk, h2]
    · rw [bump, if_neg hek]
      unfold findEntry at ih ⊢
      rw [List.find?_cons, List.find?_cons]
      cases he2 : (e.key == k2) with
      | true => rfl
      | false => exact ih

lemma lookupCount_bump_self (m : List Entry) (k ty : String) :
    lookupCount (bump k ty m) k = lookupCount m k + 1 := by
  unfold lookupCount
  rw [findEntry_bump_self]
  rfl

lemma lookupCount_bump_other (m : List Entry) {k k2 : String} (ty : String)
    (h : k2 ≠ k) : lookupCount (bump k ty m) k2 = lookupCount m k2 := by
  unfold lookupCount
  rw [findEntry_bump_other m ty h]

lemma lookupCount_tagFold (ts : List String) (m : List Entry) (t : String) :
    lookupCount
        (ts.foldl (fun acc tg => bump ("tag:" ++ tg) "tag" acc) m)
        ("tag:" ++ t)
      = lookupCount m ("tag:" ++ t) + ts.count t := by
  induction ts generalizing m with
  | nil => simp
  | cons tg ts ih =>
    rw [List.foldl_cons, ih, List.count_cons]
    by_cases h : tg = t
    · rw [h, lookupCount_bump_self]
      simp
      omega
    · rw [lookupCount_bump_other _ _ (fun hh => h (key_tag_inj hh).symm)]
      have : (tg == t) = false := by simp [h]
      simp [this]

lemma lookupCount_titleFold (ws : List String) (m : List Entry) (t : String) :
    lookupCount
        (ws.foldl (fun acc w => bump ("title:" ++ w) "title" acc) m)
        ("tag:" ++ t)
      = lookupCount m ("tag:" ++ t) := by
  induction ws generalizing m with
  | nil => rfl
  | cons w ws ih =>
    rw [List.foldl_cons, ih,
      lookupCount_bump_other _ _ (fun hh => key_title_ne_tag w t hh.symm)]

lemma lookupCount_stepPost (m : List Entry) (p : Post) (t : String) :
    lookupCount (stepPost m p) ("tag:" ++ t)
      = lookupCount m ("tag:" ++ t) + (tagsList p).count t := by
  unfold stepPost
  cases htg : p.tags with
  | none =>
    simp only [htg]
    rw [lookupCount_titleFold,
      lookupCount_bump_other _ _
        (fun hh => key_author_ne_tag p.authorName t hh.symm)]
    simp [tagsList, htg]
  | some ts =>
    simp only [htg]
    rw [lookupCount_titleFold, lookupCount_tagFold,
      lookupCount_bump_other _ _
        (fun hh => key_author_ne_tag p.authorName t hh.symm)]
    simp [tagsList, htg]

lemma lookupCount_foldl_step (posts : List Post) (m : List Entry)
    (t : String) :
    lookupCount (posts.foldl stepPost m) ("tag:" ++ t)
      = lookupCount m ("tag:" ++ t) + occCount t posts := by
  induction posts generalizing m with
  | nil => simp [occCount]
  | cons p ps ih =>
    rw [List.foldl_cons, ih, lookupCount_stepPost]
    unfold occCount
    simp [Nat.add_assoc]

lemma lookupCount_buildMap (posts : List Post) (t : String) :
    lookupCount (buildMap posts) ("tag:" ++ t) = occCount t posts := by
  unfold buildMap
  rw [lookupCount_foldl_step]
  simp [lookupCount, findEntry]

lemma mem_bump (e : Entry) (m : List Entry) (k ty : String)
    (he : e ∈ bump k ty m) : (e.key = k ∧ e.ty = ty) ∨ e ∈ m := by
  induction m with
  | nil =>
    rw [bump] at he
    rcases List.mem_singleton.mp he with rfl
    exact Or.inl ⟨rfl, rfl⟩
  | cons f fs ih =>
    by_cases h : f.key = k
    · rw [bump, if_pos h] at he
      rcases List.mem_cons.mp he with rfl | he2
      · exact Or.inl ⟨rfl, rfl⟩
      · exact Or.inr (List.mem_cons_of_mem _ he2)
    · rw [bump, if_neg h] at he
      rcases List.mem_cons.mp he with rfl | he2
      · exact Or.inr (List.mem_cons_self _ _)
      · rcases ih he2 with h1 | h1
        · exact Or.inl h1
        · exact Or.inr (List.mem_cons_of_mem _ h1)

lemma mem_tagFold (e : Entry) (ts : List String) (m : List Entry)
    (he : e ∈ ts.foldl (fun acc tg => bump ("tag:" ++ tg) "tag" acc) m) :
    e ∈ m ∨ ∃ t ∈ ts, e.key = "tag:" ++ t ∧ e.ty = "tag" := by
  induction ts generalizing m with
  | nil => exact Or.inl he
  | cons tg ts ih =>
    rw [List.foldl_cons] at he
    rcases ih _ he with h1 | ⟨t, ht, h2⟩
    · rcases mem_bump _ _ _ _ h1 with ⟨hk, hty⟩ | h2
      · exact Or.inr ⟨tg, by simp, hk, hty⟩
      · exact Or.inl h2
    · exact Or.inr ⟨t, by simp [ht], h2⟩

lemma mem_titleFold (e : Entry) (ws : List String) (m : List Entry)
    (he : e ∈ ws.foldl (fun acc w => bump ("title:" ++ w) "title" acc) m) :
    e ∈ m ∨ ∃ w, e.key = "title:" ++ w ∧ e.ty = "title" := by
  induction ws generalizing m with
  | nil => exact Or.inl he
  | cons w ws ih =>
    rw [List.foldl_cons] at he
    rcases ih _ he with h1 | h1
    · rcases mem_bump _ _ _ _ h1 with ⟨hk, hty⟩ | h2
      · exact Or.inr ⟨w, hk, hty⟩
      · exact Or.inl h2
    · exact Or.inr h1

lemma mem_stepPost (e : Entry) (m : List Entry) (p : Post)
    (he : e ∈ stepPost m p) :
    e ∈ m ∨ (e.key = "author:" ++ p.authorName ∧ e.ty = "author")
      ∨ (∃ t ∈ tagsList p, e.key = "tag:" ++ t ∧ e.ty = "tag")
      ∨ (∃ w, e.key = "title:" ++ w ∧ e.ty = "title") := by
  unfold stepPost at he
  cases htg : p.tags with
  | none =>
    simp only [htg] at he
    rcases mem_titleFold _ _ _ he with h1 | h1
    · rcases mem_bump _ _ _ _ h1 with ⟨hk, hty⟩ | h2
      · exact Or.inr (Or.inl ⟨hk, hty⟩)
      · exact Or.inl h2
    · exact Or.inr (Or.inr (Or.inr h1))
  | some ts =>
    simp only [htg] at he
    rcases mem_titleFold _ _ _ he with h1 | h1
    · rcases mem_tagFold _ _ _ h1 with h2 | ⟨t, ht, h3⟩
      · rcases mem_bump _ _ _ _ h2 with ⟨hk, hty⟩ | h4
        · exact Or.inr (Or.inl ⟨hk, hty⟩)
        · exact Or.inl h4
      · exact Or.inr (Or.inr (Or.inl ⟨t, by simp [tagsList, htg, ht], h3⟩))
    · exact Or.inr (Or.inr (Or.inr h1))

lemma mem_buildMap_shape (e : Entry) (posts : List Post)
    (he : e ∈ buildMap posts) :
    (∃ a, e.key = "author:" ++ a ∧ e.ty = "author")
      ∨ (∃ t, (∃ p ∈ posts, t ∈ tagsList p) ∧ e.key = "tag:" ++ t
          ∧ e.ty = "tag")
      ∨ (∃ w, e.key = "title:" ++ w ∧ e.ty = "title") := by
  suffices h : ∀ (ps : List Post) (m : List Entry), e ∈ ps.foldl stepPost m →
      e ∈ m ∨ (∃ a, e.key = "author:" ++ a ∧ e.ty = "author")
        ∨ (∃ t, (∃ p ∈ ps, t ∈ tagsList p) ∧ e.key = "tag:" ++ t
            ∧ e.ty = "tag")
        ∨ (∃ w, e.key = "title:" ++ w ∧ e.ty = "title") by
    rcases h posts [] he with h1 | h1
    · exact absurd h1 (List.not_mem_nil e)
    · exact h1
  intro ps
  induction ps with
  | nil => exact fun m hm => Or.inl hm
  | cons p ps ih =>
    intro m hm
    rw [List.foldl_cons] at hm
    rcases ih _ hm with h1 | h1 | h1 | h1
    · rcases mem_stepPost _ _ _ h1 with h2 | h2 | ⟨t, ht, h3⟩ | h2
      · exact Or.inl h2
      · exact Or.inr (Or.inl ⟨p.authorName, h2⟩)
      · exact Or.inr (Or.inr (Or.inl ⟨t, ⟨p, by simp, ht⟩, h3⟩))
      · exact Or.inr (Or.inr (Or.inr h2))
    · exact Or.inr (Or.inl h1)
    · obtain ⟨t, ⟨p2, hp2, ht⟩, h3⟩ := h1
      exact Or.inr (Or.inr (Or.inl ⟨t, ⟨p2, by simp [hp2], ht⟩, h3⟩))
    · exact Or.inr (Or.inr (Or.inr h1))

/-- Keys are pairwise distinct in every map the builder constructs. -/
def NodupKeys (m : List Entry) : Prop := (m.map Entry.key).Nodup

lemma keys_bump_mem {x : String} (m : List Entry) (k ty : String)
    (hx : x ∈ (bump k ty m).map Entry.key) :
    x = k ∨ x ∈ m.map Entry.key := by
  rw [List.mem_map] at hx
  obtain ⟨e, he, hkey⟩ := hx
  rcases mem_bump e m k ty he with ⟨hk, _⟩ | h2
  · exact Or.inl (by rw [← hkey, hk])
  · exact Or.inr (by rw [← hkey]; exact List.mem_map_of_mem _ h2)

lemma nodupKeys_bump (m : List Entry) (k ty : String) (hm : NodupKeys m) :
    NodupKeys (bump k ty m) := by
  induction m with
  | nil => simp [bump, NodupKeys]
  | cons e es ih =>
    unfold NodupKeys at hm ⊢
    rw [List.map_cons, List.nodup_cons] at hm
    by_cases h : e.key = k
    · rw [bump, if_pos h, List.map_cons, List.nodup_cons]
      refine ⟨?_, hm.2⟩
      show k ∉ es.map Entry.key
      rw [← h]
      exact hm.1
    · rw [bump, if_neg h, List.map_cons, List.nodup_cons]
      refine ⟨?_, ih hm.2⟩
      intro hmem
      rcases keys_bump_mem es k ty hmem with h2 | h2
      · exact h h2
      · exact hm.1 h2

lemma nodupKeys_tagFold (ts : List String) (m : List Entry)
    (hm : NodupKeys m) :
    NodupKeys (ts.foldl (fun acc tg => bump ("tag:" ++ tg) "tag" acc) m) := by
  induction ts generalizing m with
  | nil => exact hm
  | cons tg ts ih => exact ih _ (nodupKeys_bump _ _ _ hm)

lemma nodupKeys_titleFold (ws : List String) (m : List Entry)
    (hm : NodupKeys m) :
    NodupKeys
      (ws.foldl (fun acc w => bump ("title:" ++ w) "title" acc) m) := by
  induction ws generalizing m with
  | nil => exact hm
  | cons w ws ih => exact ih _ (nodupKeys_bump _ _ _ hm)

lemma nodupKeys_stepPost (m : List Entry) (p : Post) (hm : NodupKeys m) :
    NodupKeys (stepPost m p) := by
  unfold stepPost
  cases htg : p.tags with
  | none =>
    simp only [htg]
    exact nodupKeys_titleFold _ _ (nodupKeys_bump _ _ _ hm)
  | some ts =>
    simp only [htg]
    exact nodupKeys_titleFold _ _
      (nodupKeys_tagFold _ _ (nodupKeys_bump _ _ _ hm))

lemma nodupKeys_buildMap (posts : List Post) : NodupKeys (buildMap posts) := by
  unfold buildMap
  suffices h : ∀ (ps : List Post) (m : List Entry), NodupKeys m →
      NodupKeys (ps.foldl stepPost m) by
    exact h posts [] (by simp [NodupKeys])
  intro ps
  induction ps with
  | nil => exact fun m hm => hm
  | cons p ps ih => exact fun m hm => ih _ (nodupKeys_stepPost m p hm)

lemma findEntry_of_mem (m : List Entry) (e : Entry) (hm : NodupKeys m)
    (he : e ∈ m) : findEntry m e.key = some e := by
  induction m with
  | nil => exact absurd he (List.not_mem_nil e)
  | cons f fs ih =>
    unfold NodupKeys at hm
    rw [List.map_cons, List.nodup_cons] at hm
    rcases List.mem_cons.mp he with rfl | he2
    · simp [findEntry, List.find?_cons]
    · have hne : (f.key == e.key) = false := by
        rw [beq_eq_false_iff_ne]
        intro hh
        exact hm.1 (hh ▸ List.mem_map_of_mem Entry.key he2)
      unfold findEntry at ih ⊢
      rw [List.find?_cons]
      simp only [hne]
      exact ih hm.2 he2

lemma findEntry_isSome_bump (m : List Entry) (k k2 ty : String)
    (h : (findEntry m k2).isSome) :
    (findEntry (bump k ty m) k2).isSome := by
  by_cases hk : k2 = k
  · rw [hk, findEntry_bump_self]; rfl
  · rw [findEntry_bump_other m ty hk]; exact h

lemma findEntry_isSome_tagFold (ts : List String) (m : List Entry)
    (k2 : String) (h : (findEntry m k2).isSome) :
    (findEntry
      (ts.foldl (fun acc tg => bump ("tag:" ++ tg) "tag" acc) m)
      k2).isSome := by
  induction ts generalizing m with
  | nil => exact h
  | cons tg ts ih => exact ih _ (findEntry_isSome_bump _ _ _ _ h)

lemma findEntry_isSome_titleFold (ws : List String) (m : List Entry)
    (k2 : String) (h : (findEntry m k2).isSome) :
    (findEntry
      (ws.foldl (fun acc w => bump ("title:" ++ w) "title" acc) m)
      k2).isSome := by
  induction ws generalizing m with
  | nil => exact h
  | cons w ws ih => exact ih _ (findEntry_isSome_bump _ _ _ _ h)

lemma findEntry_isSome_stepPost (m : List Entry) (p : Post) (k2 : String)
    (h : (findEntry m k2).isSome) :
    (findEntry (stepPost m p) k2).isSome := by
  unfold stepPost
  cases htg : p.tags with
  | none =>
    simp only [htg]
    exact findEntry_isSome_titleFold _ _ _ (findEntry_isSome_bump _ _ _ _ h)
  | some ts =>
    simp only [htg]
    exact findEntry_isSome_titleFold _ _ _
      (findEntry_isSome_tagFold _ _ _ (findEntry_isSome_bump _ _ _ _ h))

lemma findEntry_isSome_tagFold_mem (ts : List String) (m : List Entry)
    (t : String) (ht : t ∈ ts) :
    (findEntry
      (ts.foldl (fun acc tg => bump ("tag:" ++ tg) "tag" acc) m)
      ("tag:" ++ t)).isSome := by
  induction ts generalizing m with
  | nil => exact absurd ht (List.not_mem_nil t)
  | cons tg ts ih =>
    rw [List.foldl_cons]
    rcases List.mem_cons.mp ht with rfl | ht2
    · apply findEntry_isSome_tagFold
      rw [findEntry_bump_self]
      rfl
    · exact ih _ ht2

lemma findEntry_isSome_stepPost_tag (m : List Entry) (p : Post) (t : String)
    (ht : t ∈ tagsList p) :
    (findEntry (stepPost m p) ("tag:" ++ t)).isSome := by
  unfold stepPost
  cases htg : p.tags with
  | none => simp [tagsList, htg] at ht
  | some ts =>
    simp only [htg]
    apply findEntry_isSome_titleFold
    apply findEntry_isSome_tagFold_mem
    simpa [tagsList, htg] using ht

lemma tag_presence (posts : List Post) (t : String)
    (h : ∃ p ∈ posts, t ∈ tagsList p) :
    (findEntry (buildMap posts) ("tag:" ++ t)).isSome := by
  unfold buildMap
  suffices hgen : ∀ (ps : List Post) (m : List Entry),
      ((∃ p ∈ ps, t ∈ tagsList p) ∨ (findEntry m ("tag:" ++ t)).isSome) →
      (findEntry (ps.foldl stepPost m) ("tag:" ++ t)).isSome by
    exact hgen posts [] (Or.inl h)
  intro ps
  induction ps with
  | nil =>
    intro m hm
    rcases hm with ⟨p, hp, _⟩ | hm
    · exact absurd hp (List.not_mem_nil p)
    · exact hm
  | cons p ps ih =>
    intro m hm
    rw [List.foldl_cons]
    rcases hm with ⟨p2, hp2, ht2⟩ | hm
    · rcases List.mem_cons.mp hp2 with rfl | hp3
      · exact ih _ (Or.inr (findEntry_isSome_stepPost_tag m p2 t ht2))
      · exact ih _ (Or.inl ⟨p2, hp3, ht2⟩)
    · exact ih _ (Or.inr (findEntry_isSome_stepPost m p _ hm))

lemma tag_entry_mem (posts : List Post) (t : String)
    (h : ∃ p ∈ posts, t ∈ tagsList p) :
    (⟨"tag:" ++ t, "tag", occCount t posts⟩ : Entry) ∈ buildMap posts := by
  have hs := tag_presence posts t h
  obtain ⟨e, he⟩ := Option.isSome_iff_exists.mp hs
  have hmem : e ∈ buildMap posts := List.mem_of_find?_eq_some he
  have hkey : e.key = "tag:" ++ t := by
    have := List.find?_some he
    simpa using this
  have hcount : e.count = occCount t posts := by
    have hlc := lookupCount_buildMap posts t
    unfold lookupCount at hlc
    rw [he] at hlc
    simpa using hlc
  have hty : e.ty = "tag" := by
    rcases mem_buildMap_shape e posts hmem with ⟨a, hk, _⟩
      | ⟨t2, _, _, hty⟩ | ⟨w, hk, _⟩
    · exact absurd (hk.symm.trans hkey) (key_author_ne_tag a t)
    · exact hty
    · exact absurd (hk.symm.trans hkey) (key_title_ne_tag w t)
  have heq : e = ⟨"tag:" ++ t, "tag", occCount t posts⟩ := by
    cases e
    simp_all
  rw [← heq]
  exact hmem

lemma postsWithTag_le_occCount (t : String) (posts : List Post) :
    postsWithTag t posts ≤ occCount t posts := by
  induction posts with
  | nil => simp [postsWithTag, occCount]
  | cons p ps ih =>
    unfold postsWithTag occCount at ih ⊢
    rw [List.countP_cons, List.map_cons, List.sum_cons]
    by_cases h : t ∈ tagsList p
    · have hc : 0 < (tagsList p).count t := List.count_pos_iff.mpr h
      have hd : (decide (t ∈ tagsList p)) = true := by simp [h]
      rw [hd, if_pos rfl]
      omega
    · have hd : (decide (t ∈ tagsList p)) = false := by simp [h]
      rw [hd, if_neg (by simp)]
      omega

/-- A colon-free tag token round-trips through the key extraction. -/
lemma extractValue_tag_noColon (t : String) (h : noColon t = true) :
    extractValue ("tag:" ++ t) = t := by
  have h2 : extractValue ("tag:" ++ t) = beforeColon t :=
    extractValue_key "tag" t (by decide)
  rw [h2]
  apply beforeColon_of_noColon
  intro c hc
  simpa using List.all_eq_true.mp h c hc

lemma mem_suggestions_tag (posts : List Post) (s : Suggestion)
    (hcolon : ∀ p ∈ posts, ∀ tg ∈ tagsList p, noColon tg = true)
    (hs : s ∈ searchSuggestions posts) (hty : s.ty = "tag") :
    ∃ t2, s.value = t2 ∧ s.count = occCount t2 posts ∧
      (∃ p ∈ posts, t2 ∈ tagsList p) ∧ 1 < s.count := by
  have h1 : s ∈ sortByCount (qualifying posts) := List.mem_of_mem_take hs
  have h2 : s ∈ qualifying posts := (sortByCount_perm _).mem_iff.mp h1
  unfold qualifying at h2
  rw [List.mem_filter] at h2
  obtain ⟨h3, hgt⟩ := h2
  rw [List.mem_map] at h3
  obtain ⟨e, hemem, hes⟩ := h3
  have hety : e.ty = "tag" := by
    rw [← hes] at hty
    exact hty
  rcases mem_buildMap_shape e posts hemem with ⟨a, _, hty2⟩
    | ⟨t2, hocc, hk, _⟩ | ⟨w, _, hty2⟩
  · rw [hety] at hty2
    exact absurd hty2 (by decide)
  · refine ⟨t2, ?_, ?_, hocc, by simpa using hgt⟩
    · obtain ⟨p2, hp2, ht2⟩ := hocc
      have hnc := hcolon p2 hp2 t2 ht2
      have hev : extractValue ("tag:" ++ t2) = t2 :=
        extractValue_tag_noColon t2 hnc
      rw [← hes]
      show extractValue e.key = t2
      rw [hk, hev]
    · have hnod : NodupKeys (buildMap posts) := nodupKeys_buildMap posts
      have hfe := findEntry_of_mem _ e hnod hemem
      have hlc := lookupCount_buildMap posts t2
      unfold lookupCount at hlc
      rw [← hk, hfe] at hlc
      rw [← hes]
      show e.count = occCount t2 posts
      simpa using hlc
  · rw [hety] at hty2
    exact absurd hty2 (by decide)

/-- **C3 (amended).** Over a collection in which no tag contains a colon
(the value extraction `key.split(':')[1]` truncates there, see C10) and at
most 20 aggregated suggestions pass the `count > 1` threshold (the list is
then cut to 20, see C6): a tag occurring exactly once never appears as a
tag suggestion, and a tag carried by two or more posts appears with its
`count` equal to its total number of occurrences.  Both restrictions are
forced by `spec_C3_counterexample`. -/
theorem spec_C3_suggestion_threshold_amended (posts : List Post)
    (t u : String)
    (hcolon : ∀ p ∈ posts, ∀ tg ∈ tagsList p, noColon tg = true)
    (hcap : (qualifying posts).length ≤ 20)
    (h1 : occCount t posts = 1)
    (h2 : 2 ≤ postsWithTag u posts) :
    (searchSuggestions posts).countP
        (fun s => s.ty == "tag" && s.value == t) = 0 ∧
    (⟨"tag", u, occCount u posts⟩ : Suggestion) ∈ searchSuggestions posts := by
  constructor
  · rw [List.countP_eq_zero]
    intro s hs hpred
    rw [Bool.and_eq_true, beq_iff_eq, beq_iff_eq] at hpred
    obtain ⟨t2, hval, hcnt, _, hgt⟩ :=
      mem_suggestions_tag posts s hcolon hs hpred.1
    have ht2 : t2 = t := hval.symm.trans hpred.2
    rw [ht2] at hcnt
    rw [hcnt, h1] at hgt
    exact absurd hgt (by decide)
  · have hocc2 : 2 ≤ occCount u posts :=
      le_trans h2 (postsWithTag_le_occCount u posts)
    have hex : ∃ p ∈ posts, u ∈ tagsList p := by
      have hpos : 0 < postsWithTag u posts := by omega
      unfold postsWithTag at hpos
      rw [List.countP_pos_iff] at hpos
      obtain ⟨p, hp, hpt⟩ := hpos
      exact ⟨p, hp, of_decide_eq_true hpt⟩
    have hemem := tag_entry_mem posts u hex
    have hncu : noColon u = true := by
      obtain ⟨p, hp, hu⟩ := hex
      exact hcolon p hp u hu
    have hval : extractValue ("tag:" ++ u) = u :=
      extractValue_tag_noColon u hncu
    have hsug : (⟨"tag", u, occCount u posts⟩ : Suggestion)
        ∈ (buildMap posts).map toSuggestion := by
      rw [List.mem_map]
      refine ⟨⟨"tag:" ++ u, "tag", occCount u posts⟩, hemem, ?_⟩
      simp [toSuggestion, hval]
    have hqual : (⟨"tag", u, occCount u posts⟩ : Suggestion)
        ∈ qualifying posts := by
      unfold qualifying
      rw [List.mem_filter]
      refine ⟨hsug, ?_⟩
      simp only [decide_eq_true_eq]
      omega
    have hsort := (sortByCount_perm (qualifying posts)).mem_iff.mpr hqual
    have hlen : (sortByCount (qualifying posts)).length ≤ 20 := by
      rw [(sortByCount_perm (qualifying posts)).length_eq]
      exact hcap
    unfold searchSuggestions
    rw [List.take_of_length_le hlen]
    exact hsort

def dupTagPost1 : Post :=
  ⟨"w1", "", "", "", some ["solo", "dup"], "w1", .raw none, 0, 0, none⟩

def dupTagPost2 : Post :=
  ⟨"w2", "", "", "", some ["dup"], "w2", .raw none, 0, 0, none⟩

theorem spec_C3_witness :
    (searchSuggestions [dupTagPost1, dupTagPost2]).countP
        (fun s => s.ty == "tag" && s.value == "solo") = 0 ∧
    (⟨"tag", "dup", occCount "dup" [dupTagPost1, dupTagPost2]⟩ : Suggestion)
      ∈ searchSuggestions [dupTagPost1, dupTagPost2] :=
  spec_C3_suggestion_threshold_amended [dupTagPost1, dupTagPost2] "solo" "dup"
    (by decide) (by decide) (by decide) (by decide)

def capTags : List String :=
  ["t00", "t01", "t02", "t03", "t04", "t05", "t06", "t07", "t08", "t09",
   "t10", "t11", "t12", "t13", "t14", "t15", "t16", "t17", "t18", "t19",
   "t20", "t21"]

def capPost1 : Post :=
  ⟨"c1", "", "", "", some ("q" :: "q:x" :: capTags), "u1", .raw none,
    0, 0, none⟩

def capPost2 : Post :=
  ⟨"c2", "", "", "", some ("q:x" :: capTags), "u2", .raw none, 0, 0, none⟩

/-- **C3 counterexample.** The claim as frozen fails on this collection in
both directions: the tag "q" occurs exactly once, yet a tag suggestion
with value "q" appears (it is the truncation of "q:x", which occurs
twice); and the tag "t21" occurs on two posts, yet no suggestion with
value "t21" survives, because 23 suggestions qualify and the list is cut
to the first 20. -/
theorem spec_C3_counterexample :
    occCount "q" [capPost1, capPost2] = 1 ∧
    0 < (searchSuggestions [capPost1, capPost2]).countP
        (fun s => s.ty == "tag" && s.value == "q") ∧
    2 ≤ postsWithTag "t21" [capPost1, capPost2] ∧
    (searchSuggestions [capPost1, capPost2]).countP
        (fun s => s.ty == "tag" && s.value == "t21") = 0 := by
  decide
